import Mathlib

/-!
# Verification of the `edge` template-engine utility module

A shallow embedding, in Lean 4, of `src/utils/index.ts` of the `edge`
template engine: the section merger (`mergeSections`, `isBlock`,
`hasChildSuper`), the tag-argument normalizer (`parseSequenceExpression`,
`parseAsKeyValuePair`, `ObjectifyString`), the expression validator
(`allowExpressions`) and the path resolver (`extractDiskAndTemplateName`),
together with theorems about their behaviour.
-/

namespace Edge

/-! ## Lexer token model

The lexer (`edge-lexer`) produces a list of tokens.  A token is either a
tag token (type `TagTypes.TAG` or `TagTypes.ETAG`, with
`properties.name`, `properties.jsArg` and `children`) or one of the
non-tag kinds (raw text, newline, mustache).  Source locations carried by
real tokens are never read by the merge code, so they are omitted here. -/

inductive Token where
  /-- A tag token: `isETag` distinguishes `TagTypes.ETAG` from
  `TagTypes.TAG`; `name` is `properties.name`, `jsArg` is
  `properties.jsArg`, `children` the child tokens. -/
  | tagTok (isETag : Bool) (name : String) (jsArg : String) (children : List Token)
  /-- A raw-text token. -/
  | rawTok (value : String)
  /-- A newline token. -/
  | newlineTok
  /-- A mustache (interpolation) token with its `jsArg`. -/
  | mustacheTok (jsArg : String)
  deriving Repr

/-! Boolean structural equality of tokens (with `beqTokList` for child
lists), used to obtain decidable equality for the nested inductive. -/

mutual

def Token.beq : Token → Token → Bool
  | .tagTok e n a c, .tagTok e' n' a' c' =>
    e == e' && n == n' && a == a' && Token.beqTokList c c'
  | .rawTok v, .rawTok v' => v == v'
  | .newlineTok, .newlineTok => true
  | .mustacheTok a, .mustacheTok a' => a == a'
  | _, _ => false

def Token.beqTokList : List Token → List Token → Bool
  | [], [] => true
  | t :: ts, u :: us => Token.beq t u && Token.beqTokList ts us
  | _, _ => false

end

mutual

theorem Token.beq_rfl : ∀ t : Token, Token.beq t t = true
  | .tagTok _ _ _ c => by simp [Token.beq, Token.beqTokList_rfl c]
  | .rawTok _ => by simp [Token.beq]
  | .newlineTok => by simp [Token.beq]
  | .mustacheTok _ => by simp [Token.beq]

theorem Token.beqTokList_rfl : ∀ ts : List Token, Token.beqTokList ts ts = true
  | [] => by simp [Token.beqTokList]
  | t :: ts => by simp [Token.beqTokList, Token.beq_rfl t, Token.beqTokList_rfl ts]

end

mutual

theorem Token.eq_of_beq : ∀ t u : Token, Token.beq t u = true → t = u
  | .tagTok _ _ _ c, .tagTok _ _ _ c', h => by
    simp only [Token.beq, Bool.and_eq_true, beq_iff_eq] at h
    obtain ⟨⟨⟨he, hn⟩, ha⟩, hc⟩ := h
    simp [he, hn, ha, Token.eq_of_beqTokList c c' hc]
  | .tagTok _ _ _ _, .rawTok _, h => by simp [Token.beq] at h
  | .tagTok _ _ _ _, .newlineTok, h => by simp [Token.beq] at h
  | .tagTok _ _ _ _, .mustacheTok _, h => by simp [Token.beq] at h
  | .rawTok _, .tagTok _ _ _ _, h => by simp [Token.beq] at h
  | .rawTok _, .rawTok _, h => by
    simp only [Token.beq, beq_iff_eq] at h
    simp [h]
  | .rawTok _, .newlineTok, h => by simp [Token.beq] at h
  | .rawTok _, .mustacheTok _, h => by simp [Token.beq] at h
  | .newlineTok, .tagTok _ _ _ _, h => by simp [Token.beq] at h
  | .newlineTok, .rawTok _, h => by simp [Token.beq] at h
  | .newlineTok, .newlineTok, _ => rfl
  | .newlineTok, .mustacheTok _, h => by simp [Token.beq] at h
  | .mustacheTok _, .tagTok _ _ _ _, h => by simp [Token.beq] at h
  | .mustacheTok _, .rawTok _, h => by simp [Token.beq] at h
  | .mustacheTok _, .newlineTok, h => by simp [Token.beq] at h
  | .mustacheTok _, .mustacheTok _, h => by
    simp only [Token.beq, beq_iff_eq] at h
    simp [h]

theorem Token.eq_of_beqTokList : ∀ ts us : List Token, Token.beqTokList ts us = true → ts = us
  | [], [], _ => rfl
  | [], _ :: _, h => by simp [Token.beqTokList] at h
  | _ :: _, [], h => by simp [Token.beqTokList] at h
  | t :: ts, u :: us, h => by
    simp only [Token.beqTokList, Bool.and_eq_true] at h
    simp [Token.eq_of_beq t u h.1, Token.eq_of_beqTokList ts us h.2]

end

instance : DecidableEq Token := fun t u =>
  decidable_of_iff (Token.beq t u = true)
    ⟨Token.eq_of_beq t u, fun h => h ▸ Token.beq_rfl t⟩

/-- The `children` property of a token (`[]` for non-tag tokens, which in
the source never have their `children` read by the merge code). -/
def childrenOf : Token → List Token
  | .tagTok _ _ _ c => c
  | _ => []

/-- The `properties.jsArg` property of a token (`""` for non-tag tokens,
never read by the merge code). -/
def jsArgOf : Token → String
  | .tagTok _ _ _jsArg _ => _jsArg
  | _ => ""

/-- A JS whitespace character (the kinds occurring in template
argument text). -/
def isJsSpace (c : Char) : Bool :=
  c == ' ' || c == '\t' || c == '\n' || c == '\r'

/-- JS `String.prototype.trim()`: strip whitespace from both ends
(structurally recursive model, so that it evaluates inside the
kernel). -/
def jsTrim (s : String) : String :=
  String.mk (((s.data.dropWhile isJsSpace).reverse.dropWhile isJsSpace).reverse)

/-- `node.properties.jsArg.trim()`: the section identifier of a section
token. -/
def trimArg (t : Token) : String := jsTrim (jsArgOf t)

/-- `extendedNode.children = ...` of the source, modelled functionally:
the same token with its `children` replaced (identity on non-tag tokens,
on which the source never performs this assignment). -/
def withChildren : Token → List Token → Token
  | .tagTok e n a _, c => .tagTok e n a c
  | t, _ => t

/-- `isBlock(token, name)`: the token's type is `TagTypes.TAG` or
`TagTypes.ETAG` and its `properties.name` equals `name`. -/
def isBlock (token : Token) (name : String) : Bool :=
  match token with
  | .tagTok _ n _ _ => n == name
  | _ => false

/-- `hasChildSuper(token)`: the token has children and its first child is
a `super` tag. -/
def hasChildSuper (token : Token) : Bool :=
  match childrenOf token with
  | [] => false
  | first :: _ => isBlock first "super"

/-! ## Section merger

`mergeSections` builds a map from trimmed section identifier to section
token by scanning `extended` (a JS object built with
`sections[node.properties.jsArg.trim()] = node` in a `reduce`; assignment
to an existing key overwrites its value in place, so the map is an
association list updated by `upsert`). -/

/-- JS object key assignment `sections[k] = v`: overwrite the value of an
existing key in place, otherwise append the new entry. -/
def upsert (k : String) (v : Token) : List (String × Token) → List (String × Token)
  | [] => [(k, v)]
  | (k', v') :: rest => if k' == k then (k, v) :: rest else (k', v') :: upsert k v rest

/-- JS object key read `sections[k]`: the value stored under `k`, if
any. -/
def lookupSection (k : String) : List (String × Token) → Option Token
  | [] => none
  | (k', v) :: rest => if k' == k then some v else lookupSection k rest

/-- The `extendedSections` map of `mergeSections`: filter the `section`
blocks of `extended` and fold them into a map keyed on the trimmed
`jsArg`, later duplicates overwriting earlier ones. -/
def extendedSections (extended : List Token) : List (String × Token) :=
  (extended.filter (fun node => isBlock node "section")).foldl
    (fun sections node => upsert (trimArg node) node sections) []

/-- The body of the `base.map(...)` of `mergeSections`, read per node: a
non-section node passes through; a section node is looked up in the
extended-sections map; no match keeps the base node; a match whose first
child is a `super` tag yields the extended node with children
`base.children ++ extended.children`; any other match yields the
extended node.  The source performs the concatenation by mutating the
shared `extendedNode.children` in place; this per-node functional
reading is value-correct exactly when no two base sections share a
trimmed identifier — `mergeSectionsJS` below models the mutation itself,
and `mergeSectionsJS_eq_mergeSections` proves the two agree on that
range. -/
def processNode (sections : List (String × Token)) (node : Token) : Token :=
  if isBlock node "section" then
    match lookupSection (trimArg node) sections with
    | none => node
    | some extendedNode =>
      if hasChildSuper extendedNode then
        withChildren extendedNode (childrenOf node ++ childrenOf extendedNode)
      else extendedNode
  else node

/-- `mergeSections(base, extended)`: hoisted `set` calls of `extended`
(in original order) followed by the processed base tokens (per-node
functional reading, see `processNode` and `mergeSectionsJS`). -/
def mergeSections (base extended : List Token) : List Token :=
  (extended.filter (fun node => isBlock node "set")) ++
    base.map (processNode (extendedSections extended))

/-! ### Value-level semantics of the in-place mutation

In the source, every base section that matches a map entry receives the
SAME token object, and the guarded assignment
`extendedNode.children = node.children.concat(extendedNode.children)`
mutates that shared object.  Consequently every matched output position
shows the object's FINAL state: the state after the whole walk over
`base` has run each matching base section through the guard (concatenate
when the current first child is a `super` tag) in base order.  The
definitions below compute that final state directly, making the
semantics exact for all inputs, including several base sections sharing
one trimmed identifier. -/

/-- The guarded mutation of the source, one execution: when the current
state of the shared extended node starts with a `super` tag, its
children become `node.children ++ current children`; otherwise it is
left untouched. -/
def superConcat (cur node : Token) : Token :=
  if hasChildSuper cur then withChildren cur (childrenOf node ++ childrenOf cur) else cur

/-- One step of the walk over `base` as seen by the shared extended node
stored under key `k`: a base section whose trimmed identifier is `k`
runs the guarded mutation, every other token leaves the node alone. -/
def finalSectionStep (k : String) (cur node : Token) : Token :=
  if isBlock node "section" = true ∧ trimArg node = k then superConcat cur node else cur

/-- The final state of the shared extended-section object stored under
key `k` after the whole walk over `base`. -/
def finalSectionState (base : List Token) (k : String) (extendedNode : Token) : Token :=
  base.foldl (finalSectionStep k) extendedNode

/-- The value held, once `mergeSections` returns, by the output position
of a base token: matched base sections all alias the shared extended
node and therefore show its final state. -/
def processNodeJS (base : List Token) (sections : List (String × Token)) (node : Token) :
    Token :=
  if isBlock node "section" then
    match lookupSection (trimArg node) sections with
    | none => node
    | some extendedNode => finalSectionState base (trimArg node) extendedNode
  else node

/-- `mergeSections(base, extended)` with the in-place mutation of shared
extended nodes accounted for: the value of the returned array once the
call completes. -/
def mergeSectionsJS (base extended : List Token) : List Token :=
  (extended.filter (fun node => isBlock node "set")) ++
    base.map (processNodeJS base (extendedSections extended))

/-! ## Expression model

The expression nodes handed to the tag-argument normalizer come from the
external `edge-parser` (an ESTree-style abstract syntax); the utility
functions read only a node's `type` string, `loc`, `raw` (literals),
`expressions` (sequences), `properties` (object literals), `left.name` /
`right` (assignments).  Node types other than these are collapsed into
`otherExpr` carrying their `type` string.  `parser.statementToString` is
external code and is modelled as a function argument `parser : Expr →
String`; `parser.options.filename` as a `filename` argument. -/

/-- An ESTree `loc.start` position. -/
structure Loc where
  line : Nat
  column : Nat
  deriving Repr, DecidableEq

inductive Expr where
  /-- `Literal` node with its `raw` source text. -/
  | literal (loc : Loc) (raw : String)
  /-- `Identifier` node with its `name`. -/
  | identifier (loc : Loc) (name : String)
  /-- `SequenceExpression` node with its `expressions`. -/
  | sequence (loc : Loc) (expressions : List Expr)
  /-- `ObjectExpression` node with its `properties`, each a
  `(key, value)` pair. -/
  | objectExpr (loc : Loc) (properties : List (Expr × Expr))
  /-- `AssignmentExpression` node with `left` and `right`. -/
  | assignment (loc : Loc) (left : Expr) (right : Expr)
  /-- Any other node type, carrying its `type` string. -/
  | otherExpr (loc : Loc) (typeName : String)
  deriving Repr

/-- `expression.type`, the ESTree type string. -/
def exprType : Expr → String
  | .literal _ _ => "Literal"
  | .identifier _ _ => "Identifier"
  | .sequence _ _ => "SequenceExpression"
  | .objectExpr _ _ => "ObjectExpression"
  | .assignment _ _ _ => "AssignmentExpression"
  | .otherExpr _ t => t

/-- `expression.loc.start`. -/
def locOf : Expr → Loc
  | .literal l _ => l
  | .identifier l _ => l
  | .sequence l _ => l
  | .objectExpr l _ => l
  | .assignment l _ _ => l
  | .otherExpr l _ => l

/-- The model of a JS `undefined` flowing out of a property access the
source never performs on well-formed input. -/
def undefinedExpr : Expr := .otherExpr ⟨0, 0⟩ "undefined"

/-- `expression.raw` (`Literal` nodes; `""` models `undefined`
elsewhere, never read by the source on validated input). -/
def rawOf : Expr → String
  | .literal _ r => r
  | _ => ""

/-- `expression.name` (`Identifier` nodes; `""` models `undefined`
elsewhere). -/
def nameOf : Expr → String
  | .identifier _ n => n
  | _ => ""

/-- `expression.expressions` (`SequenceExpression` nodes; `[]` models
`undefined` elsewhere). -/
def exprsOf : Expr → List Expr
  | .sequence _ es => es
  | _ => []

/-- `expression.properties` (`ObjectExpression` nodes). -/
def propsOf : Expr → List (Expr × Expr)
  | .objectExpr _ ps => ps
  | _ => []

/-- `expression.left` (`AssignmentExpression` nodes). -/
def leftOf : Expr → Expr
  | .assignment _ l _ => l
  | _ => undefinedExpr

/-- `expression.right` (`AssignmentExpression` nodes). -/
def rightOf : Expr → Expr
  | .assignment _ _ r => r
  | _ => undefinedExpr

/-- A sequence node with its `expressions` list replaced (models the
state of the node after `expression.expressions.shift()`). -/
def withExprs : Expr → List Expr → Expr
  | .sequence l _, es => .sequence l es
  | e, _ => e

/-! Boolean structural equality of expressions, to obtain decidable
equality for the nested inductive. -/

mutual

def Expr.beq : Expr → Expr → Bool
  | .literal l r, .literal l' r' => l == l' && r == r'
  | .identifier l n, .identifier l' n' => l == l' && n == n'
  | .sequence l es, .sequence l' es' => l == l' && Expr.beqExprList es es'
  | .objectExpr l ps, .objectExpr l' ps' => l == l' && Expr.beqProps ps ps'
  | .assignment l a b, .assignment l' a' b' =>
    l == l' && Expr.beq a a' && Expr.beq b b'
  | .otherExpr l t, .otherExpr l' t' => l == l' && t == t'
  | _, _ => false

def Expr.beqExprList : List Expr → List Expr → Bool
  | [], [] => true
  | e :: es, f :: fs => Expr.beq e f && Expr.beqExprList es fs
  | _, _ => false

def Expr.beqProps : List (Expr × Expr) → List (Expr × Expr) → Bool
  | [], [] => true
  | (k, v) :: ps, (k', v') :: ps' =>
    Expr.beq k k' && Expr.beq v v' && Expr.beqProps ps ps'
  | _, _ => false

end

mutual

theorem Expr.beqExpr_rfl : ∀ e : Expr, Expr.beq e e = true
  | .literal _ _ => by simp [Expr.beq]
  | .identifier _ _ => by simp [Expr.beq]
  | .sequence _ es => by simp [Expr.beq, Expr.beqExprList_rfl es]
  | .objectExpr _ ps => by simp [Expr.beq, Expr.beqProps_rfl ps]
  | .assignment _ a b => by simp [Expr.beq, Expr.beqExpr_rfl a, Expr.beqExpr_rfl b]
  | .otherExpr _ _ => by simp [Expr.beq]

theorem Expr.beqExprList_rfl : ∀ es : List Expr, Expr.beqExprList es es = true
  | [] => by simp [Expr.beqExprList]
  | e :: es => by simp [Expr.beqExprList, Expr.beqExpr_rfl e, Expr.beqExprList_rfl es]

theorem Expr.beqProps_rfl : ∀ ps : List (Expr × Expr), Expr.beqProps ps ps = true
  | [] => by simp [Expr.beqProps]
  | (k, v) :: ps => by
    simp [Expr.beqProps, Expr.beqExpr_rfl k, Expr.beqExpr_rfl v, Expr.beqProps_rfl ps]

end

mutual

theorem Expr.eq_of_beqExpr : ∀ e f : Expr, Expr.beq e f = true → e = f
  | .literal _ _, f, h => by
    cases f <;> simp [Expr.beq] at h
    simp [h.1, h.2]
  | .identifier _ _, f, h => by
    cases f <;> simp [Expr.beq] at h
    simp [h.1, h.2]
  | .sequence _ es, f, h => by
    cases f <;> simp [Expr.beq] at h
    case sequence _ es' => simp [h.1, Expr.eq_of_beqExprList es es' h.2]
  | .objectExpr _ ps, f, h => by
    cases f <;> simp [Expr.beq] at h
    case objectExpr _ ps' => simp [h.1, Expr.eq_of_beqProps ps ps' h.2]
  | .assignment _ a b, f, h => by
    cases f <;> simp [Expr.beq, Bool.and_assoc] at h
    case assignment _ a' b' =>
      simp [h.1, Expr.eq_of_beqExpr a a' h.2.1, Expr.eq_of_beqExpr b b' h.2.2]
  | .otherExpr _ _, f, h => by
    cases f <;> simp [Expr.beq] at h
    simp [h.1, h.2]

theorem Expr.eq_of_beqExprList : ∀ es fs : List Expr, Expr.beqExprList es fs = true → es = fs
  | [], [], _ => rfl
  | [], _ :: _, h => by simp [Expr.beqExprList] at h
  | _ :: _, [], h => by simp [Expr.beqExprList] at h
  | e :: es, f :: fs, h => by
    simp only [Expr.beqExprList, Bool.and_eq_true] at h
    simp [Expr.eq_of_beqExpr e f h.1, Expr.eq_of_beqExprList es fs h.2]

theorem Expr.eq_of_beqProps :
    ∀ ps qs : List (Expr × Expr), Expr.beqProps ps qs = true → ps = qs
  | [], [], _ => rfl
  | [], _ :: _, h => by simp [Expr.beqProps] at h
  | _ :: _, [], h => by simp [Expr.beqProps] at h
  | (k, v) :: ps, (k', v') :: qs, h => by
    simp only [Expr.beqProps, Bool.and_assoc, Bool.and_eq_true] at h
    simp [Expr.eq_of_beqExpr k k' h.1, Expr.eq_of_beqExpr v v' h.2.1,
      Expr.eq_of_beqProps ps qs h.2.2]

end

instance : DecidableEq Expr := fun e f =>
  decidable_of_iff (Expr.beq e f = true)
    ⟨Expr.eq_of_beqExpr e f, fun h => h ▸ Expr.beqExpr_rfl e⟩

/-! ## Expression validator -/

/-- An `EdgeError` as thrown by `edge-error`: a message, an error code
and the `line`/`col`/`filename` diagnostic payload. -/
structure EdgeError where
  message : String
  code : String
  line : Nat
  col : Nat
  filename : String
  deriving Repr, DecidableEq

/-- `allowExpressions(tag, expression, expressions, filename)`: throws
`E_UNALLOWED_EXPRESSION` (carrying the expression's start line and
column and the filename) when `expressions.indexOf(expression.type) ===
-1`; modelled in `Except`, returning `ok` instead of falling through. -/
def allowExpressions (tag : String) (expression : Expr) (expressions : List String)
    (filename : String) : Except EdgeError Unit :=
  if expressions.contains (exprType expression) then Except.ok ()
  else Except.error
    ⟨exprType expression ++ (" is not allowed for " ++ (tag ++ " tag.")),
      "E_UNALLOWED_EXPRESSION", (locOf expression).line, (locOf expression).column, filename⟩

/-! ## Tag-argument normalizer

`ObjectifyString` accumulates an object-like string in a private `obj`
field; each `parseSequenceExpression` call creates a fresh instance, so
the field is modelled as an explicit accumulator string threaded through
`objectifyAdd` (the `flush` reset of the field is irrelevant: the
instance is dropped right after). -/

/-- `ObjectifyString.add(key, value)`: appends `", key: value"`, or
`"key: value"` when the accumulator is still empty. -/
def objectifyAdd (obj key value : String) : String :=
  obj ++ (if obj.length != 0 then ", " ++ key ++ ": " ++ value else key ++ ": " ++ value)

/-- `ObjectifyString.flush()`: wraps the accumulator in braces with one
space of padding on each side. -/
def objectifyFlush (obj : String) : String :=
  "\x7b " ++ obj ++ " \x7d"

/-- The body of the `expression.expressions.forEach` of
`parseSequenceExpression`: an `ObjectExpression` argument adds each of
its properties (key and value rendered through the parser); an
`AssignmentExpression` argument adds `(arg.left.name, render(arg.right))`;
any other argument kind leaves the accumulator alone. -/
def sequenceArgStep (parser : Expr → String) (obj : String) (arg : Expr) : String :=
  let objAfterProps :=
    if exprType arg == "ObjectExpression" then
      (propsOf arg).foldl (fun o prop => objectifyAdd o (parser prop.1) (parser prop.2)) obj
    else obj
  if exprType arg == "AssignmentExpression" then
    objectifyAdd objAfterProps (nameOf (leftOf arg)) (parser (rightOf arg))
  else objAfterProps

/-- `parseSequenceExpression(expression, parser)` with the state of the
expression node made explicit: the source calls
`expression.expressions.shift()`, which removes the first element of the
node's `expressions` array in place, so the result is paired with the
expression node as it stands after the call.  On an empty `expressions`
array, `shift()` yields `undefined`, modelled by rendering
`undefinedExpr` (the real parser never produces an empty sequence). -/
def parseSequenceExpressionS (expression : Expr) (parser : Expr → String) :
    (String × String) × Expr :=
  if exprType expression == "SequenceExpression" then
    let name := parser ((exprsOf expression).headD undefinedExpr)
    let rest := (exprsOf expression).tail
    let obj := rest.foldl (sequenceArgStep parser) ""
    ((name, objectifyFlush obj), withExprs expression rest)
  else ((parser expression, "\x7b\x7d"), expression)

/-- The return value of `parseSequenceExpression(expression, parser)`:
`[name, objectLikeString]`. -/
def parseSequenceExpression (expression : Expr) (parser : Expr → String) : String × String :=
  (parseSequenceExpressionS expression parser).1

/-- `parseAsKeyValuePair(expression, parser, valueExpressions)`
(`filename` stands for `parser.options.filename`): validates the top
level as `Literal` or `SequenceExpression`; a `Literal` returns
`[expression.raw, null]`; a sequence of more than 2 expressions throws
`E_MAX_ARGUMENTS`; otherwise the first sub-expression must be a
`Literal` and, when `valueExpressions` is non-empty, the second's type
must be one of them, and the result is `[first.raw, render(second)]`.
Out-of-range element accesses (sequences of fewer than 2 elements, which
the real parser never produces) are modelled by `undefinedExpr`. -/
def parseAsKeyValuePair (expression : Expr) (parser : Expr → String) (filename : String)
    (valueExpressions : List String) : Except EdgeError (String × Option String) := do
  let _ ← allowExpressions "slot" expression ["Literal", "SequenceExpression"] filename
  if exprType expression == "Literal" then
    return (rawOf expression, none)
  if (exprsOf expression).length > 2 then
    throw ⟨"Maximum of 2 arguments are allowed for slot tag", "E_MAX_ARGUMENTS",
      (locOf expression).line, (locOf expression).column, filename⟩
  let first := (exprsOf expression).getD 0 undefinedExpr
  let second := (exprsOf expression).getD 1 undefinedExpr
  let _ ← allowExpressions "slot" first ["Literal"] filename
  if valueExpressions.length != 0 then
    let _ ← allowExpressions "slot" second valueExpressions filename
  return (rawOf first, some (parser second))

/-- The state of the expression node after `parseAsKeyValuePair`
returns: the source only reads the node (no assignment to it or its
parts occurs on any path), so the post-call state is the node itself. -/
def parseAsKeyValuePairS (expression : Expr) (parser : Expr → String) (filename : String)
    (valueExpressions : List String) : Except EdgeError (String × Option String) × Expr :=
  (parseAsKeyValuePair expression parser filename valueExpressions, expression)

/-! ## Path resolver -/

/-- `sep` of node's `path` module: the platform path separator,
modelled as the POSIX one. -/
def sep : String := "/"

/-- The splitter behind `jsSplit`: walks the input accumulating the
current segment (reversed) and starts a new segment past each occurrence
of the separator.  The `fuel` argument only bounds the recursion
structurally; it starts at one more than the input length, which a
non-empty separator can never exhaust. -/
def jsSplitGo (sepChars : List Char) : Nat → List Char → List Char → List (List Char)
  | _, acc, [] => [acc.reverse]
  | 0, acc, rest => [acc.reverse ++ rest]
  | fuel + 1, acc, c :: cs =>
    if sepChars.isPrefixOf (c :: cs) then
      acc.reverse :: jsSplitGo sepChars fuel [] ((c :: cs).drop sepChars.length)
    else
      jsSplitGo sepChars fuel (c :: acc) cs

/-- JS `s.split(sep)` for a non-empty separator (structurally recursive
model, so that it evaluates inside the kernel). -/
def jsSplit (s sepStr : String) : List String :=
  (jsSplitGo sepStr.data (s.data.length + 1) [] s.data).map String.mk

/-- JS `array.join(sep)`. -/
def joinWith (sepStr : String) : List String → String
  | [] => ""
  | [s] => s
  | s :: rest => s ++ sepStr ++ joinWith sepStr rest

/-- `template.replace(/\./, sep)` on the character list: only the first
dot is replaced (the regular expression carries no global flag). -/
def replaceFirstDotChars : List Char → List Char
  | [] => []
  | c :: cs => if c == '.' then sep.data ++ cs else c :: replaceFirstDotChars cs

/-- `template.replace(/\./, sep)`. -/
def replaceFirstDot (s : String) : String :=
  String.mk (replaceFirstDotChars s.data)

/-- `extractDiskAndTemplateName(templatePath)`: split on `::` (first
component is the disk, the rest rejoined is the template reference;
without a separator the disk defaults to `default`), split the reference
on `.edge` into template and extension (a missing or empty extension —
JS `ext || 'edge'` — defaults to `edge`), replace the first dot of the
template with the path separator and append `.` and the extension. -/
def extractDiskAndTemplateName (templatePath : String) : String × String :=
  let parts := jsSplit templatePath "::"
  let diskHead := parts.headD ""
  let restTail := parts.tail
  let disk := if restTail.length == 0 then "default" else diskHead
  let rest := if restTail.length == 0 then [diskHead] else restTail
  let segments := jsSplit (joinWith "::" rest) ".edge"
  let template := segments.headD ""
  let ext := segments.getD 1 ""
  (disk, replaceFirstDot template ++ "." ++ (if ext == "" then "edge" else ext))

/-! ## Association-map lemmas for the section map -/

theorem lookupSection_upsert_self (k : String) (v : Token) (m : List (String × Token)) :
    lookupSection k (upsert k v m) = some v := by
  induction m with
  | nil => simp [upsert, lookupSection]
  | cons p m ih =>
    obtain ⟨k', v'⟩ := p
    simp only [upsert]
    split
    · simp [lookupSection]
    · next h =>
      rw [Bool.not_eq_true] at h
      simp [lookupSection, h, ih]

theorem lookupSection_upsert_ne (k k2 : String) (v : Token) (m : List (String × Token))
    (hne : k2 ≠ k) : lookupSection k2 (upsert k v m) = lookupSection k2 m := by
  induction m with
  | nil =>
    have : (k == k2) = false := by simp [Ne.symm hne]
    simp [upsert, lookupSection, this]
  | cons p m ih =>
    obtain ⟨k', v'⟩ := p
    simp only [upsert]
    split
    · next h =>
      rw [beq_iff_eq] at h
      subst h
      have h1 : (k' == k2) = false := by simp [Ne.symm hne]
      simp [lookupSection, h1]
    · simp [lookupSection, ih]

theorem lookupSection_foldl_skip (l : List Token) (m : List (String × Token)) (k : String)
    (h : ∀ t ∈ l, trimArg t ≠ k) :
    lookupSection k (l.foldl (fun sections node => upsert (trimArg node) node sections) m) =
      lookupSection k m := by
  induction l generalizing m with
  | nil => rfl
  | cons t l ih =>
    rw [List.foldl_cons, ih _ (fun u hu => h u (List.mem_cons_of_mem t hu)),
      lookupSection_upsert_ne _ _ _ _ (Ne.symm (h t (List.mem_cons_self t l)))]

/-- The value the section map holds for the identifier of a section of
`extended` that no later top-level section redeclares is that section
itself. -/
theorem extendedSections_lookup_last (q r : List Token) (sTok : Token)
    (hsec : isBlock sTok "section" = true)
    (hlast : ∀ t ∈ r, isBlock t "section" = true → trimArg t ≠ trimArg sTok) :
    lookupSection (trimArg sTok) (extendedSections (q ++ sTok :: r)) = some sTok := by
  unfold extendedSections
  rw [List.filter_append, List.filter_cons_of_pos (by simpa using hsec), List.foldl_append,
    List.foldl_cons]
  rw [lookupSection_foldl_skip]
  · exact lookupSection_upsert_self _ _ _
  · intro t ht
    rw [List.mem_filter] at ht
    exact hlast t ht.1 (by simpa using ht.2)

theorem mem_upsert (p : String × Token) (k : String) (v : Token) (m : List (String × Token))
    (h : p ∈ upsert k v m) : p = (k, v) ∨ p ∈ m := by
  induction m with
  | nil => simpa [upsert] using h
  | cons q m ih =>
    obtain ⟨k', v'⟩ := q
    simp only [upsert] at h
    split at h
    · rcases List.mem_cons.mp h with h1 | h1
      · exact Or.inl h1
      · exact Or.inr (List.mem_cons_of_mem _ h1)
    · rcases List.mem_cons.mp h with h1 | h1
      · exact Or.inr (h1 ▸ List.mem_cons_self _ _)
      · rcases ih h1 with h2 | h2
        · exact Or.inl h2
        · exact Or.inr (List.mem_cons_of_mem _ h2)

theorem mem_foldl_sections (l : List Token) (m : List (String × Token)) (p : String × Token)
    (h : p ∈ l.foldl (fun sections node => upsert (trimArg node) node sections) m) :
    p ∈ m ∨ ∃ t ∈ l, p = (trimArg t, t) := by
  induction l generalizing m with
  | nil => exact Or.inl h
  | cons t l ih =>
    rw [List.foldl_cons] at h
    rcases ih _ h with h1 | h1
    · rcases mem_upsert _ _ _ _ h1 with h2 | h2
      · exact Or.inr ⟨t, List.mem_cons_self t l, h2⟩
      · exact Or.inl h2
    · obtain ⟨u, hu, hp⟩ := h1
      exact Or.inr ⟨u, List.mem_cons_of_mem t hu, hp⟩

theorem lookupSection_mem (k : String) (m : List (String × Token)) (v : Token)
    (h : lookupSection k m = some v) : (k, v) ∈ m := by
  induction m with
  | nil => simp [lookupSection] at h
  | cons p m ih =>
    obtain ⟨k', v'⟩ := p
    simp only [lookupSection] at h
    split at h
    · next heq =>
      rw [beq_iff_eq] at heq
      obtain rfl := heq
      simp at h
      simp [h]
    · exact List.mem_cons_of_mem _ (ih h)

/-- Every value the section map can yield is a top-level `section` token
of `extended` whose trimmed identifier is the key looked up. -/
theorem extendedSections_lookup_spec (extended : List Token) (k : String) (v : Token)
    (h : lookupSection k (extendedSections extended) = some v) :
    v ∈ extended ∧ isBlock v "section" = true ∧ trimArg v = k := by
  have hm := lookupSection_mem _ _ _ h
  unfold extendedSections at hm
  rcases mem_foldl_sections _ _ _ hm with h1 | h1
  · simp at h1
  · obtain ⟨t, ht, hp⟩ := h1
    rw [List.mem_filter] at ht
    obtain ⟨hk, hv⟩ := Prod.mk.injEq .. ▸ hp
    exact ⟨hv ▸ ht.1, hv ▸ (by simpa using ht.2), hv ▸ hk.symm⟩

/-- A token satisfying `isBlock` for a name is a tag token with that
name. -/
theorem isBlock_iff (t : Token) (name : String) :
    isBlock t name = true ↔ ∃ e a c, t = Token.tagTok e name a c := by
  cases t <;> simp [isBlock]

/-! ## Final-state lemmas for the in-place mutation -/

theorem foldl_finalSectionStep_skip (l : List Token) (k : String) (cur : Token)
    (h : ∀ t ∈ l, isBlock t "section" = true → trimArg t ≠ k) :
    l.foldl (finalSectionStep k) cur = cur := by
  induction l generalizing cur with
  | nil => rfl
  | cons t l ih =>
    rw [List.foldl_cons,
      show finalSectionStep k cur t = cur from
        if_neg (fun hc => h t (List.mem_cons_self t l) hc.1 hc.2),
      ih cur (fun u hu => h u (List.mem_cons_of_mem t hu))]

/-- With no other base section carrying the identifier `k`, the shared
node is mutated exactly once, at the single matching base section. -/
theorem finalSectionState_single (p s : List Token) (k : String) (bTok cur : Token)
    (hp : ∀ t ∈ p, isBlock t "section" = true → trimArg t ≠ k)
    (hs : ∀ t ∈ s, isBlock t "section" = true → trimArg t ≠ k)
    (hb : isBlock bTok "section" = true) (hk : trimArg bTok = k) :
    finalSectionState (p ++ bTok :: s) k cur = superConcat cur bTok := by
  unfold finalSectionState
  rw [List.foldl_append, foldl_finalSectionStep_skip p k cur hp, List.foldl_cons,
    show finalSectionStep k cur bTok = superConcat cur bTok from if_pos ⟨hb, hk⟩,
    foldl_finalSectionStep_skip s k _ hs]

/-- When the base template's top-level sections carry pairwise-distinct
trimmed identifiers — the well-formedness invariant of a template — the
in-place mutation touches each shared extended node at most once, and
the value-level semantics coincides with the per-node functional model
used throughout this file. -/
theorem mergeSectionsJS_eq_mergeSections (base extended : List Token)
    (hdist : List.Pairwise
      (fun u v => isBlock u "section" = true → isBlock v "section" = true →
        trimArg u ≠ trimArg v) base) :
    mergeSectionsJS base extended = mergeSections base extended := by
  unfold mergeSectionsJS mergeSections
  congr 1
  refine List.map_congr_left (fun node hmem => ?_)
  by_cases hbs : isBlock node "section" = true
  · cases hlk : lookupSection (trimArg node) (extendedSections extended) with
    | none =>
      have h1 : processNodeJS base (extendedSections extended) node = node := by
        unfold processNodeJS
        rw [if_pos hbs, hlk]
      have h2 : processNode (extendedSections extended) node = node := by
        unfold processNode
        rw [if_pos hbs, hlk]
      rw [h1, h2]
    | some eN =>
      have h1 : processNodeJS base (extendedSections extended) node =
          finalSectionState base (trimArg node) eN := by
        unfold processNodeJS
        rw [if_pos hbs, hlk]
      have h2 : processNode (extendedSections extended) node =
          (if hasChildSuper eN = true
          then withChildren eN (childrenOf node ++ childrenOf eN) else eN) := by
        unfold processNode
        rw [if_pos hbs, hlk]
      rw [h1, h2]
      obtain ⟨l1, l2, rfl⟩ := List.append_of_mem hmem
      rw [List.pairwise_append] at hdist
      obtain ⟨_, hd2, hd12⟩ := hdist
      rw [List.pairwise_cons] at hd2
      obtain ⟨hnode_l2, _⟩ := hd2
      have hp : ∀ t ∈ l1, isBlock t "section" = true → trimArg t ≠ trimArg node :=
        fun t ht hts =>
          hd12 t ht node (List.mem_cons_self node l2) hts hbs
      have hs : ∀ t ∈ l2, isBlock t "section" = true → trimArg t ≠ trimArg node :=
        fun t ht hts he => (hnode_l2 t ht hbs hts) he.symm
      rw [finalSectionState_single l1 l2 (trimArg node) node eN hp hs hbs rfl]
      rfl
  · have h1 : processNodeJS base (extendedSections extended) node = node := by
      unfold processNodeJS
      rw [if_neg hbs]
    have h2 : processNode (extendedSections extended) node = node := by
      unfold processNode
      rw [if_neg hbs]
    rw [h1, h2]

/-! ## Section-merger theorems -/

/-- C3: for every call to `mergeSections(base, extended)`, the result is
the extended list's top-level `set`-call tokens in their original
relative order followed by the processed base tokens; and when
`extended` declares no top-level sections, the processed base tokens are
the base tokens unchanged, so the merged tree is the base tree with the
extended `set` calls prepended. -/
theorem mergeSections_set_call_hoisting (base extended : List Token) :
    mergeSections base extended =
      (extended.filter (fun node => isBlock node "set")) ++
        base.map (processNode (extendedSections extended)) ∧
    ((∀ t ∈ extended, isBlock t "section" = false) →
      mergeSections base extended =
        (extended.filter (fun node => isBlock node "set")) ++ base) := by
  refine ⟨rfl, fun h => ?_⟩
  unfold mergeSections
  have hf : extended.filter (fun node => isBlock node "section") = [] := by
    rw [List.filter_eq_nil_iff]
    intro a ha
    simp [h a ha]
  have hM : extendedSections extended = [] := by
    unfold extendedSections
    rw [hf]
    rfl
  have hid : ∀ t, processNode [] t = t := by
    intro t
    unfold processNode
    split <;> simp [lookupSection]
  rw [hM, show processNode [] = id from funext hid, List.map_id]

/-- C3 witness: a concrete extended template with two `set` calls and no
section has them hoisted in order in front of the unchanged base. -/
theorem mergeSections_set_call_hoisting_witness :
    mergeSections [Token.rawTok "pre", Token.tagTok false "section" "A" [Token.rawTok "baseA"]]
        [Token.tagTok false "set" "x" [], Token.rawTok "junk", Token.tagTok false "set" "y" []] =
      [Token.tagTok false "set" "x" [], Token.tagTok false "set" "y" [],
        Token.rawTok "pre", Token.tagTok false "section" "A" [Token.rawTok "baseA"]] :=
  (mergeSections_set_call_hoisting
    [Token.rawTok "pre", Token.tagTok false "section" "A" [Token.rawTok "baseA"]]
    [Token.tagTok false "set" "x" [], Token.rawTok "junk",
      Token.tagTok false "set" "y" []]).2 (by decide)

/-- C2: when the only top-level section of `extended` is a section with
argument `a` whose first child is not a `super` tag, every base section
whose trimmed identifier equals `jsTrim a` is replaced in full by the
extended section, and every other base token (in particular any base
section `B` with a different identifier) passes through unchanged, in
the base's original order. -/
theorem mergeSections_single_override (base extended : List Token) (e : Bool) (a : String)
    (ec : List Token)
    (hsecs : extended.filter (fun node => isBlock node "section") =
      [Token.tagTok e "section" a ec])
    (hnosuper : hasChildSuper (Token.tagTok e "section" a ec) = false) :
    mergeSections base extended =
      (extended.filter (fun node => isBlock node "set")) ++
        base.map (fun t =>
          if isBlock t "section" = true ∧ trimArg t = jsTrim a
          then Token.tagTok e "section" a ec else t) := by
  unfold mergeSections
  congr 1
  have hM : extendedSections extended = [(jsTrim a, Token.tagTok e "section" a ec)] := by
    unfold extendedSections
    rw [hsecs]
    rfl
  refine List.map_congr_left (fun t ht => ?_)
  rw [hM]
  unfold processNode
  by_cases hs : isBlock t "section" = true
  · rw [if_pos hs]
    by_cases ha : trimArg t = jsTrim a
    · have hl : lookupSection (trimArg t) [(jsTrim a, Token.tagTok e "section" a ec)] =
          some (Token.tagTok e "section" a ec) := by
        simp [lookupSection, ha]
      rw [hl, if_pos ⟨hs, ha⟩]
      simp [hnosuper]
    · have hl : lookupSection (trimArg t) [(jsTrim a, Token.tagTok e "section" a ec)] = none := by
        simp [lookupSection, Ne.symm ha]
      rw [hl, if_neg (fun hc => ha hc.2)]
  · rw [if_neg hs, if_neg (fun hc => hs hc.1)]

/-- C2 witness: base `[A, B]`, extended overriding only `A` with no
`super`: the merged tree is extended's `A`, then base's `B`, in base
order. -/
theorem mergeSections_single_override_witness :
    mergeSections
        [Token.tagTok false "section" "A" [Token.rawTok "baseA"],
          Token.tagTok false "section" "B" [Token.rawTok "baseB"]]
        [Token.tagTok false "section" "A" [Token.rawTok "extA"]] =
      [Token.tagTok false "section" "A" [Token.rawTok "extA"],
        Token.tagTok false "section" "B" [Token.rawTok "baseB"]] := by
  have h := mergeSections_single_override
    [Token.tagTok false "section" "A" [Token.rawTok "baseA"],
      Token.tagTok false "section" "B" [Token.rawTok "baseB"]]
    [Token.tagTok false "section" "A" [Token.rawTok "extA"]]
    false "A" [Token.rawTok "extA"] (by decide) (by decide)
  rw [h]
  rfl

/-- C1 counterexample: with base section `A` holding one raw child and
extended section `A` whose first child is a `super` tag, the merged
section's children are NOT the base children followed by the extended
children with the leading `super` marker removed — the marker is kept in
place (stated over the mutation-accounting value semantics
`mergeSectionsJS`). -/
theorem mergeSections_super_strips_marker_counterexample :
    mergeSectionsJS [Token.tagTok false "section" "A" [Token.rawTok "baseA"]]
        [Token.tagTok false "section" "A"
          [Token.tagTok false "super" "" [], Token.rawTok "extA"]] ≠
      [Token.tagTok false "section" "A" [Token.rawTok "baseA", Token.rawTok "extA"]] := by
  have h : mergeSectionsJS [Token.tagTok false "section" "A" [Token.rawTok "baseA"]]
      [Token.tagTok false "section" "A"
        [Token.tagTok false "super" "" [], Token.rawTok "extA"]] =
      [Token.tagTok false "section" "A"
        [Token.rawTok "baseA", Token.tagTok false "super" "" [], Token.rawTok "extA"]] := rfl
  rw [h]
  simp

/-- C1 (amended): when the base contains one top-level section with
trimmed identifier `A` (and no other base section carries that
identifier), the extended template's last top-level section with
identifier `A` has a `super` tag as its first child, then — in the
value-level semantics accounting for the source's in-place mutation —
the merged section at that base position has children equal to the base
section's children followed by the extended section's children with the
leading `super` marker RETAINED: `mergeSections` does not strip the
marker. -/
theorem mergeSections_super_concatenates (p s q r bc ec : List Token) (bt et : Bool)
    (bArg eArg : String)
    (hkey : jsTrim eArg = jsTrim bArg)
    (hsuper : hasChildSuper (Token.tagTok et "section" eArg ec) = true)
    (hlast : ∀ t ∈ r, isBlock t "section" = true → trimArg t ≠ jsTrim bArg)
    (hponly : ∀ t ∈ p, isBlock t "section" = true → trimArg t ≠ jsTrim bArg)
    (hsonly : ∀ t ∈ s, isBlock t "section" = true → trimArg t ≠ jsTrim bArg) :
    mergeSectionsJS (p ++ Token.tagTok bt "section" bArg bc :: s)
        (q ++ Token.tagTok et "section" eArg ec :: r) =
      ((q ++ Token.tagTok et "section" eArg ec :: r).filter (fun node => isBlock node "set")) ++
        (p.map (processNodeJS (p ++ Token.tagTok bt "section" bArg bc :: s)
            (extendedSections (q ++ Token.tagTok et "section" eArg ec :: r))) ++
          Token.tagTok et "section" eArg (bc ++ ec) ::
            s.map (processNodeJS (p ++ Token.tagTok bt "section" bArg bc :: s)
              (extendedSections (q ++ Token.tagTok et "section" eArg ec :: r)))) := by
  unfold mergeSectionsJS
  rw [List.map_append, List.map_cons]
  congr 2
  have hlook : lookupSection (jsTrim bArg)
      (extendedSections (q ++ Token.tagTok et "section" eArg ec :: r)) =
      some (Token.tagTok et "section" eArg ec) := by
    have h := extendedSections_lookup_last q r (Token.tagTok et "section" eArg ec)
      (by simp [isBlock]) (fun t ht hs => by
        rw [show trimArg (Token.tagTok et "section" eArg ec) = jsTrim bArg from hkey]
        exact hlast t ht hs)
    rwa [show trimArg (Token.tagTok et "section" eArg ec) = jsTrim bArg from hkey] at h
  have hv : processNodeJS (p ++ Token.tagTok bt "section" bArg bc :: s)
      (extendedSections (q ++ Token.tagTok et "section" eArg ec :: r))
      (Token.tagTok bt "section" bArg bc) =
      finalSectionState (p ++ Token.tagTok bt "section" bArg bc :: s) (jsTrim bArg)
        (Token.tagTok et "section" eArg ec) := by
    unfold processNodeJS
    rw [if_pos (by simp [isBlock]),
      show trimArg (Token.tagTok bt "section" bArg bc) = jsTrim bArg from rfl, hlook]
  rw [hv, finalSectionState_single p s (jsTrim bArg) (Token.tagTok bt "section" bArg bc)
    (Token.tagTok et "section" eArg ec) hponly hsonly (by simp [isBlock]) rfl]
  unfold superConcat
  rw [if_pos hsuper]
  rfl

/-- C1 (amended) witness: concrete base and extended templates with a
`super`-led override of the base's only section `A`. -/
theorem mergeSections_super_concatenates_witness :
    mergeSectionsJS
        [Token.rawTok "pre", Token.tagTok false "section" "A" [Token.rawTok "baseA"]]
        [Token.tagTok false "section" "A"
          [Token.tagTok false "super" "" [], Token.rawTok "extA"]] =
      [Token.rawTok "pre",
        Token.tagTok false "section" "A"
          [Token.rawTok "baseA", Token.tagTok false "super" "" [], Token.rawTok "extA"]] := by
  have h := mergeSections_super_concatenates [Token.rawTok "pre"] [] [] []
    [Token.rawTok "baseA"] [Token.tagTok false "super" "" [], Token.rawTok "extA"]
    false false "A" "A" rfl (by decide) (by intro t ht; cases ht)
    (by decide) (by intro t ht; cases ht)
  exact h

/-- C4: when extended declares two top-level sections whose trimmed
identifiers coincide (and no later section redeclares it), the section
map silently holds the later section for that identifier, and the merge
still produces a full result list (set-calls plus one token per base
token) — no error is raised. -/
theorem extendedSections_last_duplicate_wins (q m r : List Token) (t1 t2 : Bool)
    (a1 a2 : String) (c1 c2 : List Token)
    (hkey : jsTrim a2 = jsTrim a1)
    (hlast : ∀ t ∈ r, isBlock t "section" = true → trimArg t ≠ jsTrim a1) :
    lookupSection (jsTrim a1)
        (extendedSections
          (q ++ Token.tagTok t1 "section" a1 c1 :: (m ++ Token.tagTok t2 "section" a2 c2 :: r))) =
      some (Token.tagTok t2 "section" a2 c2) ∧
    ∀ base : List Token,
      (mergeSections base
        (q ++ Token.tagTok t1 "section" a1 c1 :: (m ++ Token.tagTok t2 "section" a2 c2 :: r))).length =
      ((q ++ Token.tagTok t1 "section" a1 c1 :: (m ++ Token.tagTok t2 "section" a2 c2 :: r)).filter
        (fun node => isBlock node "set")).length + base.length := by
  constructor
  · have hperm : q ++ Token.tagTok t1 "section" a1 c1 :: (m ++ Token.tagTok t2 "section" a2 c2 :: r) =
        (q ++ Token.tagTok t1 "section" a1 c1 :: m) ++ Token.tagTok t2 "section" a2 c2 :: r := by
      simp
    rw [hperm]
    have h := extendedSections_lookup_last (q ++ Token.tagTok t1 "section" a1 c1 :: m) r
      (Token.tagTok t2 "section" a2 c2) (by simp [isBlock]) (fun t ht hs => by
        rw [show trimArg (Token.tagTok t2 "section" a2 c2) = jsTrim a1 from hkey]
        exact hlast t ht hs)
    rwa [show trimArg (Token.tagTok t2 "section" a2 c2) = jsTrim a1 from hkey] at h
  · intro base
    unfold mergeSections
    rw [List.length_append, List.length_map]

/-- C4 witness: two extended sections named `A`; the map yields the
second, and the merge of a one-token base yields a full result. -/
theorem extendedSections_last_duplicate_wins_witness :
    lookupSection (jsTrim "A")
        (extendedSections
          ([] ++ Token.tagTok false "section" "A" [Token.rawTok "first"] ::
            ([] ++ Token.tagTok false "section" "A" [Token.rawTok "second"] :: []))) =
      some (Token.tagTok false "section" "A" [Token.rawTok "second"]) :=
  (extendedSections_last_duplicate_wins [] [] [] false false "A" "A"
    [Token.rawTok "first"] [Token.rawTok "second"] rfl (by intro t ht; cases ht)).1

/-- C9: a top-level token of extended that is not a `set` call, is not
already a token of base, and — if it is a section — matches no base
section's trimmed identifier, does not occur in the merged output:
child-template content outside matching sections is silently
discarded. -/
theorem mergeSections_discards_unmatched (base extended : List Token) (t : Token)
    (hnb : t ∉ base)
    (hnset : isBlock t "set" = false)
    (hnsec : isBlock t "section" = true →
      ∀ b ∈ base, isBlock b "section" = true → trimArg b ≠ trimArg t) :
    t ∉ mergeSections base extended := by
  intro hmem
  unfold mergeSections at hmem
  rcases List.mem_append.mp hmem with h | h
  · rw [List.mem_filter] at h
    rw [h.2] at hnset
    exact absurd hnset (by simp)
  · obtain ⟨b, hb, hfb⟩ := List.mem_map.mp h
    by_cases hbs : isBlock b "section" = true
    · cases hlk : lookupSection (trimArg b) (extendedSections extended) with
      | none =>
        have hv : processNode (extendedSections extended) b = b := by
          unfold processNode
          rw [if_pos hbs, hlk]
        rw [hv] at hfb
        exact hnb (hfb ▸ hb)
      | some eN =>
        have hv : processNode (extendedSections extended) b =
            if hasChildSuper eN = true
            then withChildren eN (childrenOf b ++ childrenOf eN) else eN := by
          unfold processNode
          rw [if_pos hbs, hlk]
        rw [hv] at hfb
        obtain ⟨heN, hsecN, hkeyN⟩ := extendedSections_lookup_spec extended (trimArg b) eN hlk
        obtain ⟨e1, a1, c1, rfl⟩ := (isBlock_iff eN "section").mp hsecN
        by_cases hsup : hasChildSuper (Token.tagTok e1 "section" a1 c1) = true
        · rw [if_pos hsup] at hfb
          have hts : isBlock t "section" = true := by
            rw [← hfb]
            simp [withChildren, isBlock]
          have htrim : trimArg t = trimArg b := by
            rw [← hfb]
            simpa [withChildren, trimArg, jsArgOf] using hkeyN
          exact hnsec hts b hb hbs htrim.symm
        · rw [if_neg hsup] at hfb
          have hts : isBlock t "section" = true := hfb ▸ hsecN
          have htrim : trimArg t = trimArg b := hfb ▸ hkeyN
          exact hnsec hts b hb hbs htrim.symm
    · have hv : processNode (extendedSections extended) b = b := by
        unfold processNode
        rw [if_neg hbs]
      rw [hv] at hfb
      exact hnb (hfb ▸ hb)

/-- C9 witness: a raw token and an unmatched section of the extended
template are both absent from a concrete merge. -/
theorem mergeSections_discards_unmatched_witness :
    Token.rawTok "junk" ∉
      mergeSections [Token.tagTok false "section" "A" [Token.rawTok "baseA"]]
        [Token.rawTok "junk", Token.tagTok false "section" "C" [Token.rawTok "extC"]] :=
  mergeSections_discards_unmatched
    [Token.tagTok false "section" "A" [Token.rawTok "baseA"]]
    [Token.rawTok "junk", Token.tagTok false "section" "C" [Token.rawTok "extC"]]
    (Token.rawTok "junk")
    (by intro h; rcases List.mem_singleton.mp h with h1; cases h1)
    (by decide)
    (by intro h; cases h)

/-! ## Tag-argument normalizer lemmas

The object-literal string built by `ObjectifyString` is characterized
through the list of `key: value` entries each sequence argument
contributes. -/

/-- `ObjectifyString.add` with the `key: value` entry pre-assembled. -/
def addPair (obj entry : String) : String :=
  obj ++ (if obj.length != 0 then ", " ++ entry else entry)

/-- The `key: value` entries the `forEach` of `parseSequenceExpression`
adds for the listed arguments, in order: all rendered properties of an
object-literal argument, the single `left.name: render(right)` entry of
an assignment argument, nothing for any other argument kind. -/
def sequencePairs (parser : Expr → String) (args : List Expr) : List String :=
  args.flatMap (fun arg =>
    (if exprType arg == "ObjectExpression" then
      (propsOf arg).map (fun prop => parser prop.1 ++ ": " ++ parser prop.2)
    else []) ++
    (if exprType arg == "AssignmentExpression" then
      [nameOf (leftOf arg) ++ ": " ++ parser (rightOf arg)]
    else []))

/-- Comma-joined entries, as `ObjectifyString` accumulates them. -/
def joinedPairs : List String → String
  | [] => ""
  | [entry] => entry
  | entry :: rest => entry ++ ", " ++ joinedPairs rest

theorem str_ne_empty_iff_length (s : String) : s ≠ "" ↔ s.length ≠ 0 := by
  constructor
  · intro h hl
    apply h
    cases s with
    | mk data =>
      simp [String.length] at hl
      simp [hl]
  · intro h he
    subst he
    exact h rfl

theorem pair_entry_ne_empty (a b : String) : a ++ ": " ++ b ≠ "" := by
  rw [str_ne_empty_iff_length]
  have h2 : (": ").length = 2 := rfl
  simp [h2]

theorem sequencePairs_ne_empty (parser : Expr → String) (args : List Expr) :
    ∀ entry ∈ sequencePairs parser args, entry ≠ "" := by
  intro entry hentry
  unfold sequencePairs at hentry
  rw [List.mem_flatMap] at hentry
  obtain ⟨arg, _, hmem⟩ := hentry
  rcases List.mem_append.mp hmem with h | h
  · split at h
    · obtain ⟨prop, _, hp⟩ := List.mem_map.mp h
      exact hp ▸ pair_entry_ne_empty _ _
    · cases h
  · split at h
    · rw [List.mem_singleton.mp h]
      exact pair_entry_ne_empty _ _
    · cases h

theorem sequenceArgStep_eq_foldl (parser : Expr → String) (obj : String) (arg : Expr) :
    sequenceArgStep parser obj arg =
      ((if exprType arg == "ObjectExpression" then
          (propsOf arg).map (fun prop => parser prop.1 ++ ": " ++ parser prop.2)
        else []) ++
        (if exprType arg == "AssignmentExpression" then
          [nameOf (leftOf arg) ++ ": " ++ parser (rightOf arg)]
        else [])).foldl addPair obj := by
  unfold sequenceArgStep
  by_cases h1 : (exprType arg == "ObjectExpression") = true
  · by_cases h2 : (exprType arg == "AssignmentExpression") = true
    · rw [beq_iff_eq] at h1 h2
      rw [h1] at h2
      simp at h2
    · rw [if_pos h1, if_pos h1, if_neg h2, if_neg h2, List.append_nil, List.foldl_map]
      rfl
  · by_cases h2 : (exprType arg == "AssignmentExpression") = true
    · rw [if_neg h1, if_neg h1, if_pos h2, if_pos h2, List.nil_append]
      rfl
    · rw [if_neg h1, if_neg h1, if_neg h2, if_neg h2]
      rfl

theorem foldl_sequenceArgStep (parser : Expr → String) (args : List Expr) (obj : String) :
    args.foldl (sequenceArgStep parser) obj = (sequencePairs parser args).foldl addPair obj := by
  induction args generalizing obj with
  | nil => rfl
  | cons arg args ih =>
    rw [List.foldl_cons, ih, sequenceArgStep_eq_foldl]
    unfold sequencePairs
    rw [List.flatMap_cons]
    simp [List.foldl_append]

theorem append_ne_empty_of_left (a b : String) (h : a ≠ "") : a ++ b ≠ "" := by
  rw [str_ne_empty_iff_length] at h ⊢
  simp only [String.length_append]
  omega

theorem foldl_addPair_of_ne_empty (rest : List String) (obj : String) (h : obj ≠ "") :
    rest.foldl addPair obj = joinedPairs (obj :: rest) := by
  induction rest generalizing obj with
  | nil => rfl
  | cons entry rest ih =>
    rw [List.foldl_cons]
    have hadd : addPair obj entry = obj ++ ", " ++ entry := by
      unfold addPair
      rw [if_pos (by simpa using (str_ne_empty_iff_length obj).mp h), ← String.append_assoc]
    have hne : addPair obj entry ≠ "" := by
      rw [hadd]
      exact append_ne_empty_of_left _ _ (append_ne_empty_of_left _ _ h)
    rw [ih _ hne, hadd]
    cases rest with
    | nil => rfl
    | cons u t => simp [joinedPairs, String.append_assoc]

theorem foldl_addPair_of_empty (entries : List String)
    (h : ∀ entry ∈ entries, entry ≠ "") :
    entries.foldl addPair "" = joinedPairs entries := by
  cases entries with
  | nil => rfl
  | cons entry rest =>
    rw [List.foldl_cons]
    have hadd : addPair "" entry = entry := rfl
    rw [hadd]
    exact foldl_addPair_of_ne_empty rest entry (h entry (List.mem_cons_self entry rest))

/-- The value of `parseSequenceExpression` on a sequence node with at
least one element: the rendered first element, and the flushed
comma-joined entries of the remaining arguments. -/
theorem parseSequenceExpression_cons (parser : Expr → String) (l : Loc) (first : Expr)
    (rest : List Expr) :
    parseSequenceExpression (.sequence l (first :: rest)) parser =
      (parser first, objectifyFlush (joinedPairs (sequencePairs parser rest))) := by
  unfold parseSequenceExpression parseSequenceExpressionS
  rw [if_pos (by simp [exprType])]
  show (parser first, objectifyFlush (List.foldl (sequenceArgStep parser) "" rest)) = _
  rw [foldl_sequenceArgStep, foldl_addPair_of_empty _ (sequencePairs_ne_empty parser rest)]

/-! ## Tag-argument normalizer theorems -/

/-- C6: a non-sequence expression yields `(render(expression), "{}")`;
on a sequence, the rendered first element is the name and the props
literal is the brace-wrapped comma-join of the entries contributed by
the remaining elements (one `left.name: render(right)` entry per
assignment, all rendered `key: value` property entries of an object
literal, nothing for any other kind); in particular the sequence
`('card', title='hi')` rendered with `rawOf` yields the name `'card'`
and the props literal holding `title: 'hi'`. -/
theorem parseSequenceExpression_spec (parser : Expr → String) :
    (∀ e : Expr, exprType e ≠ "SequenceExpression" →
      parseSequenceExpression e parser = (parser e, "\x7b\x7d")) ∧
    (∀ (l : Loc) (first : Expr) (rest : List Expr),
      parseSequenceExpression (.sequence l (first :: rest)) parser =
        (parser first, objectifyFlush (joinedPairs (sequencePairs parser rest)))) ∧
    parseSequenceExpression
        (.sequence ⟨1, 0⟩ [.literal ⟨1, 1⟩ "'card'",
          .assignment ⟨1, 9⟩ (.identifier ⟨1, 9⟩ "title") (.literal ⟨1, 15⟩ "'hi'")]) rawOf =
      ("'card'", "\x7b title: 'hi' \x7d") := by
  refine ⟨fun e h => ?_, fun l first rest => parseSequenceExpression_cons parser l first rest, rfl⟩
  unfold parseSequenceExpression parseSequenceExpressionS
  rw [if_neg (fun hc => h (by simpa using hc))]

/-- C6 witness: a bare literal expression yields the rendered literal
and the empty-object literal `"{}"`. -/
theorem parseSequenceExpression_spec_witness :
    parseSequenceExpression (Expr.literal ⟨2, 4⟩ "'foo.bar'") rawOf = ("'foo.bar'", "\x7b\x7d") :=
  (parseSequenceExpression_spec rawOf).1 (Expr.literal ⟨2, 4⟩ "'foo.bar'") (by decide)

/-- C10: a sequence whose elements after the first contain no
object-literal and no assignment accumulates no entry, so the flushed
props literal is the brace-space-space-brace string, which differs from
the two-character braces of the non-sequence path. -/
theorem parseSequenceExpression_empty_accumulator (parser : Expr → String) (l : Loc)
    (first : Expr) (rest : List Expr)
    (h : ∀ arg ∈ rest,
      exprType arg ≠ "ObjectExpression" ∧ exprType arg ≠ "AssignmentExpression") :
    (parseSequenceExpression (.sequence l (first :: rest)) parser).2 = "\x7b  \x7d" ∧
    "\x7b  \x7d" ≠ "\x7b\x7d" := by
  refine ⟨?_, by decide⟩
  have hpairs : sequencePairs parser rest = [] := by
    unfold sequencePairs
    induction rest with
    | nil => rfl
    | cons arg args ih =>
      rw [List.flatMap_cons, ih (fun a ha => h a (List.mem_cons_of_mem arg ha))]
      obtain ⟨h1, h2⟩ := h arg (List.mem_cons_self arg args)
      rw [if_neg (by simpa using h1), if_neg (by simpa using h2)]
      rfl
  rw [parseSequenceExpression_cons, hpairs]
  rfl

/-- C10 witness: `('card', someIdentifier)` flushes the two-space empty
object string. -/
theorem parseSequenceExpression_empty_accumulator_witness :
    (parseSequenceExpression
        (.sequence ⟨1, 0⟩ [Expr.literal ⟨1, 1⟩ "'card'", Expr.identifier ⟨1, 9⟩ "x"]) rawOf).2 =
      "\x7b  \x7d" :=
  (parseSequenceExpression_empty_accumulator rawOf ⟨1, 0⟩ (Expr.literal ⟨1, 1⟩ "'card'")
    [Expr.identifier ⟨1, 9⟩ "x"] (by decide)).1

/-- C5: `parseAsKeyValuePair` rejects any top-level kind other than
`Literal` and `SequenceExpression` with `E_UNALLOWED_EXPRESSION`;
returns `(raw, null)` on a literal; rejects a sequence of more than two
elements with `E_MAX_ARGUMENTS` carrying the sequence's line, column and
the filename; on a two-element sequence, rejects a first element that
is not a `Literal`, and — when the allowed value kinds list is
non-empty — validates the second element's kind against it, rejecting a
non-member with `E_UNALLOWED_EXPRESSION` at the second element's
location and otherwise returning `(first.raw, render(second))`. -/
theorem parseAsKeyValuePair_spec (parser : Expr → String) (filename : String)
    (valueExpressions : List String) :
    (∀ e : Expr, exprType e ∉ ["Literal", "SequenceExpression"] →
      parseAsKeyValuePair e parser filename valueExpressions =
        .error ⟨exprType e ++ " is not allowed for slot tag.", "E_UNALLOWED_EXPRESSION",
          (locOf e).line, (locOf e).column, filename⟩) ∧
    (∀ (l : Loc) (raw : String),
      parseAsKeyValuePair (.literal l raw) parser filename valueExpressions =
        .ok (raw, none)) ∧
    (∀ (l : Loc) (es : List Expr), es.length > 2 →
      parseAsKeyValuePair (.sequence l es) parser filename valueExpressions =
        .error ⟨"Maximum of 2 arguments are allowed for slot tag", "E_MAX_ARGUMENTS",
          l.line, l.column, filename⟩) ∧
    (∀ (l : Loc) (e0 e1 : Expr), exprType e0 ≠ "Literal" →
      parseAsKeyValuePair (.sequence l [e0, e1]) parser filename valueExpressions =
        .error ⟨exprType e0 ++ " is not allowed for slot tag.", "E_UNALLOWED_EXPRESSION",
          (locOf e0).line, (locOf e0).column, filename⟩) ∧
    (∀ (l : Loc) (e0 e1 : Expr), exprType e0 = "Literal" →
      (valueExpressions ≠ [] → exprType e1 ∈ valueExpressions) →
      parseAsKeyValuePair (.sequence l [e0, e1]) parser filename valueExpressions =
        .ok (rawOf e0, some (parser e1))) ∧
    (∀ (l : Loc) (e0 e1 : Expr), exprType e0 = "Literal" →
      valueExpressions ≠ [] → exprType e1 ∉ valueExpressions →
      parseAsKeyValuePair (.sequence l [e0, e1]) parser filename valueExpressions =
        .error ⟨exprType e1 ++ " is not allowed for slot tag.", "E_UNALLOWED_EXPRESSION",
          (locOf e1).line, (locOf e1).column, filename⟩) := by
  refine ⟨fun e h => ?_, fun l raw => ?_, fun l es h => ?_, fun l e0 e1 h => ?_,
    fun l e0 e1 h0 h1 => ?_, fun l e0 e1 h0 hne h1 => ?_⟩
  · have hcontains : (["Literal", "SequenceExpression"].contains (exprType e)) = false := by
      simpa using h
    unfold parseAsKeyValuePair allowExpressions
    rw [hcontains]
    rfl
  · rfl
  · unfold parseAsKeyValuePair allowExpressions
    simp only [show exprType (Expr.sequence l es) = "SequenceExpression" from rfl,
      show exprsOf (Expr.sequence l es) = es from rfl,
      show locOf (Expr.sequence l es) = l from rfl]
    rw [if_pos (show (["Literal", "SequenceExpression"].contains "SequenceExpression") = true
        from by decide),
      if_neg (show ¬(("SequenceExpression" == "Literal") = true) from by decide),
      if_pos h]
    rfl
  · unfold parseAsKeyValuePair allowExpressions
    simp only [show exprType (Expr.sequence l [e0, e1]) = "SequenceExpression" from rfl,
      show exprsOf (Expr.sequence l [e0, e1]) = [e0, e1] from rfl,
      show locOf (Expr.sequence l [e0, e1]) = l from rfl,
      List.getD_cons_zero, List.getD_cons_succ]
    rw [if_pos (show (["Literal", "SequenceExpression"].contains "SequenceExpression") = true
        from by decide),
      if_neg (show ¬(("SequenceExpression" == "Literal") = true) from by decide),
      if_neg (show ¬([e0, e1].length > 2) from by simp),
      if_neg (show ¬((["Literal"].contains (exprType e0)) = true) from by simpa using h)]
    rfl
  · unfold parseAsKeyValuePair allowExpressions
    simp only [show exprType (Expr.sequence l [e0, e1]) = "SequenceExpression" from rfl,
      show exprsOf (Expr.sequence l [e0, e1]) = [e0, e1] from rfl,
      show locOf (Expr.sequence l [e0, e1]) = l from rfl,
      List.getD_cons_zero, List.getD_cons_succ]
    rw [if_pos (show (["Literal", "SequenceExpression"].contains "SequenceExpression") = true
        from by decide),
      if_neg (show ¬(("SequenceExpression" == "Literal") = true) from by decide),
      if_neg (show ¬([e0, e1].length > 2) from by simp),
      if_pos (show (["Literal"].contains (exprType e0)) = true from by simp [h0])]
    by_cases hv : valueExpressions = []
    · subst hv
      rfl
    · rw [if_pos (show (valueExpressions.length != 0) = true from by
        rw [bne_iff_ne]
        exact fun hl => hv (List.length_eq_zero.mp hl)),
        if_pos (show (valueExpressions.contains (exprType e1)) = true from by
          simpa using h1 hv)]
      rfl
  · unfold parseAsKeyValuePair allowExpressions
    simp only [show exprType (Expr.sequence l [e0, e1]) = "SequenceExpression" from rfl,
      show exprsOf (Expr.sequence l [e0, e1]) = [e0, e1] from rfl,
      show locOf (Expr.sequence l [e0, e1]) = l from rfl,
      List.getD_cons_zero, List.getD_cons_succ]
    rw [if_pos (show (["Literal", "SequenceExpression"].contains "SequenceExpression") = true
        from by decide),
      if_neg (show ¬(("SequenceExpression" == "Literal") = true) from by decide),
      if_neg (show ¬([e0, e1].length > 2) from by simp),
      if_pos (show (["Literal"].contains (exprType e0)) = true from by simp [h0]),
      if_pos (show (valueExpressions.length != 0) = true from by
        rw [bne_iff_ne]
        exact fun hl => hne (List.length_eq_zero.mp hl)),
      if_neg (show ¬((valueExpressions.contains (exprType e1)) = true) from by
        simpa using h1)]
    rfl

/-- C5 witness: a three-element sequence fails with `E_MAX_ARGUMENTS`
carrying the sequence's location and the filename, and a two-element
sequence whose second element's kind is outside a non-empty allowed
list fails with `E_UNALLOWED_EXPRESSION` at the second element's
location. -/
theorem parseAsKeyValuePair_spec_witness :
    parseAsKeyValuePair
        (.sequence ⟨4, 2⟩ [Expr.literal ⟨4, 3⟩ "'a'", Expr.literal ⟨4, 8⟩ "'b'",
          Expr.literal ⟨4, 13⟩ "'c'"]) rawOf "foo.edge" [] =
      .error ⟨"Maximum of 2 arguments are allowed for slot tag", "E_MAX_ARGUMENTS",
        4, 2, "foo.edge"⟩ ∧
    parseAsKeyValuePair
        (.sequence ⟨5, 1⟩ [Expr.literal ⟨5, 2⟩ "'k'", Expr.identifier ⟨5, 7⟩ "v"])
        rawOf "foo.edge" ["Literal"] =
      .error ⟨"Identifier is not allowed for slot tag.", "E_UNALLOWED_EXPRESSION",
        5, 7, "foo.edge"⟩ :=
  ⟨(parseAsKeyValuePair_spec rawOf "foo.edge" []).2.2.1 ⟨4, 2⟩
    [Expr.literal ⟨4, 3⟩ "'a'", Expr.literal ⟨4, 8⟩ "'b'", Expr.literal ⟨4, 13⟩ "'c'"]
    (by decide),
  (parseAsKeyValuePair_spec rawOf "foo.edge" ["Literal"]).2.2.2.2.2 ⟨5, 1⟩
    (Expr.literal ⟨5, 2⟩ "'k'") (Expr.identifier ⟨5, 7⟩ "v")
    (by decide) (by decide) (by decide)⟩

/-- C8 counterexample: `parseSequenceExpression` is not stateless — the
`shift()` call removes the first element of a sequence node's element
list, so after the call the node differs from its initial state and its
element list no longer contains the first element. -/
theorem parseSequenceExpression_shifts_counterexample :
    (parseSequenceExpressionS
        (Expr.sequence ⟨1, 0⟩ [Expr.literal ⟨1, 1⟩ "'card'", Expr.literal ⟨1, 9⟩ "'x'"])
        rawOf).2 ≠
      Expr.sequence ⟨1, 0⟩ [Expr.literal ⟨1, 1⟩ "'card'", Expr.literal ⟨1, 9⟩ "'x'"] ∧
    Expr.literal ⟨1, 1⟩ "'card'" ∉
      exprsOf (parseSequenceExpressionS
        (Expr.sequence ⟨1, 0⟩ [Expr.literal ⟨1, 1⟩ "'card'", Expr.literal ⟨1, 9⟩ "'x'"])
        rawOf).2 := by
  have h : (parseSequenceExpressionS
      (Expr.sequence ⟨1, 0⟩ [Expr.literal ⟨1, 1⟩ "'card'", Expr.literal ⟨1, 9⟩ "'x'"])
      rawOf).2 = Expr.sequence ⟨1, 0⟩ [Expr.literal ⟨1, 9⟩ "'x'"] := rfl
  rw [h]
  constructor
  · intro hc
    simp at hc
  · intro hc
    simp [exprsOf] at hc

/-- C8 (amended): `parseAsKeyValuePair` leaves its expression unchanged
(it only reads the node), and so does `parseSequenceExpression` on a
non-sequence expression; but on a sequence node `parseSequenceExpression`
removes the first element from the node's element list in place (the
`shift()` call), so the node is left holding only the remaining
elements. -/
theorem parse_functions_state_effect (parser : Expr → String) (filename : String)
    (valueExpressions : List String) (e : Expr) :
    (parseAsKeyValuePairS e parser filename valueExpressions).2 = e ∧
    (exprType e ≠ "SequenceExpression" → (parseSequenceExpressionS e parser).2 = e) ∧
    (∀ (l : Loc) (es : List Expr),
      (parseSequenceExpressionS (.sequence l es) parser).2 = .sequence l es.tail) := by
  refine ⟨rfl, fun h => ?_, fun l es => rfl⟩
  unfold parseSequenceExpressionS
  rw [if_neg (fun hc => h (by simpa using hc))]

/-- C8 (amended) witness: a literal expression is returned unchanged by
the sequence parser's state. -/
theorem parse_functions_state_effect_witness :
    (parseSequenceExpressionS (Expr.literal ⟨1, 0⟩ "'a'") rawOf).2 = Expr.literal ⟨1, 0⟩ "'a'" :=
  (parse_functions_state_effect rawOf "foo.edge" [] (Expr.literal ⟨1, 0⟩ "'a'")).2.1 (by decide)

/-! ## Path resolver theorems -/

/-- C7: the reference is split at the first `::` (none ⇒ disk
`default`), only the first dot of the template part becomes the path
separator, and the extension defaults to `edge`; in particular
`users::list ⇒ (users, list.edge)` and `list ⇒ (default, list.edge)`.
The further conjuncts pin down each clause: dotted paths map the first
dot only, an explicit `.edge` suffix is not duplicated, and only the
first `::` separates the disk. -/
theorem extractDiskAndTemplateName_spec :
    extractDiskAndTemplateName "users::list" = ("users", "list.edge") ∧
    extractDiskAndTemplateName "list" = ("default", "list.edge") ∧
    extractDiskAndTemplateName "users.list" = ("default", "users/list.edge") ∧
    extractDiskAndTemplateName "a.b.c" = ("default", "a/b.c.edge") ∧
    extractDiskAndTemplateName "users::pages.list.edge" = ("users", "pages/list.edge") ∧
    extractDiskAndTemplateName "disk::a::b" = ("disk", "a::b.edge") :=
  ⟨rfl, rfl, rfl, rfl, rfl, rfl⟩

end Edge
